import Mathlib

/-!
# Verification of the SOP document server core

Shallow embedding of `src/mcp_sop_server` (document_processor.py,
document_searcher.py, mcp_server.py) and proofs about it.

Python strings are modelled as `List Char`; Python `int` as `Int` (indices
may be negative, and Python slice / `str.rfind` semantics for negative
indices are modelled explicitly).  Python `//` is floor division, modelled
by `Int.fdiv`.  The `while` loop of `chunk_text` is modelled with explicit
fuel, so that non-termination of the source loop corresponds to the model
returning `none` for every fuel.

External collaborators (ChromaDB collection, sentence-transformer model)
are not part of the repository; where their behaviour decides a claim they
are modelled from the spec (see the doc comments marked "Modelled from the
spec").  The embedding model is an arbitrary deterministic function
parameter, as the spec requires.
-/

namespace SOP

/-! ## Python string primitives -/

/-- ASCII whitespace, the core of both Python's `str.strip` default set and
the regex class `\s` (the model is restricted to ASCII whitespace; the
repository's texts and all inputs used below contain no exotic Unicode
whitespace). -/
def pyIsSpace (c : Char) : Bool :=
  c = ' ' || c = '\t' || c = '\n' || c = '\r' || c = Char.ofNat 11 || c = Char.ofNat 12

/-- Python's normalization of a (possibly negative) slice/`rfind` bound for a
string of length `n`: a negative index counts from the end (clamped at 0), a
non-negative one is clamped at `n`. -/
def pyClampIdx (n : Nat) (i : Int) : Nat :=
  if i < 0 then (i + n).toNat else min i.toNat n

/-- Python slice `t[s:e]`. -/
def pySlice (t : List Char) (s e : Int) : List Char :=
  (t.take (pyClampIdx t.length e)).drop (pyClampIdx t.length s)

/-- Python `t.rfind(c, s, e)` for a single-character needle: the greatest
index `i` in the normalized range `[s', e')` with `t[i] = c`, or `-1` if
there is none. -/
def pyRfindChar (t : List Char) (c : Char) (s e : Int) : Int :=
  match (List.range t.length).reverse.find?
      (fun i => decide (pyClampIdx t.length s ≤ i) &&
                decide (i < pyClampIdx t.length e) &&
                decide (t[i]? = some c)) with
  | some i => (i : Int)
  | none => -1

/-- Python `t.strip()`: remove leading and trailing whitespace. -/
def pyStrip (l : List Char) : List Char :=
  ((l.dropWhile pyIsSpace).reverse.dropWhile pyIsSpace).reverse

/-! ## `DocumentProcessor.clean_text` (document_processor.py lines 46-55) -/

/-- Helper for `collapseWS`: the flag records whether the previous input
character was whitespace (in which case the current whitespace run has
already emitted its single `' '`). -/
def collapseAux : Bool → List Char → List Char
  | _, [] => []
  | prevWS, c :: cs =>
    if pyIsSpace c then
      if prevWS then collapseAux true cs else ' ' :: collapseAux true cs
    else c :: collapseAux false cs

/-- `re.sub(r'\s+', ' ', text)`: every maximal run of whitespace becomes a
single space. -/
def collapseWS (l : List Char) : List Char := collapseAux false l

/-- The accented letters explicitly kept by the character filter of
`clean_text`. -/
def allowedAccents : List Char :=
  ['à','á','â','ã','ä','å','æ','ç','è','é','ê','ë','ì','í','î','ï','ð','ñ',
   'ò','ó','ô','õ','ö','ø','ù','ú','û','ü','ý','þ','ÿ']

/-- The punctuation explicitly kept by the character filter of
`clean_text`. -/
def allowedPunct : List Char :=
  ['.', ',', ';', ':', '!', '?', '(', ')', '-']

/-- Regex `\w` (word character), restricted to ASCII alphanumerics and `_`;
the accented letters of the source pattern are listed separately in
`allowedAccents`, so the model's allow-list is a subset of Python's on which
the two agree for all characters appearing below. -/
def isWordChar (c : Char) : Bool := c.isAlphanum || c = '_'

/-- A character kept by `re.sub(r'[^\w\sà...ÿ.,;:!?()-]', '', text)`. -/
def isAllowed (c : Char) : Bool :=
  isWordChar c || pyIsSpace c || allowedAccents.contains c || allowedPunct.contains c

/-- `DocumentProcessor.clean_text`: collapse whitespace runs, strip, then
drop characters outside the allow-list. -/
def clean_text (t : List Char) : List Char :=
  (pyStrip (collapseWS t)).filter isAllowed

/-! ## `DocumentProcessor.chunk_text` (document_processor.py lines 57-81) -/

/-- The end position chosen for the window starting at `start`: `start +
chunk_size`, moved back to just after the last `'.'` in the window when that
period lies past the window midpoint (`chunk_size // 2` is Python floor
division) and the window does not already reach the end of the text. -/
def chunkEnd (t : List Char) (chunk_size : Int) (start : Int) : Int :=
  let e := start + chunk_size
  if e < (t.length : Int) then
    let sentence_end := pyRfindChar t '.' start e
    if sentence_end > start + Int.fdiv chunk_size 2 then sentence_end + 1 else e
  else e

/-- The `while start < len(text)` loop of `chunk_text`, with explicit fuel:
`none` means the fuel was exhausted before the loop finished. -/
def chunkLoop (t : List Char) (chunk_size overlap : Int) :
    Nat → Int → List (List Char) → Option (List (List Char))
  | 0, _, _ => none
  | Nat.succ fuel, start, chunks =>
    if start < (t.length : Int) then
      let e := chunkEnd t chunk_size start
      let chunk := pyStrip (pySlice t start e)
      chunkLoop t chunk_size overlap fuel (e - overlap)
        (if chunk.isEmpty then chunks else chunks ++ [chunk])
    else some chunks

/-- `DocumentProcessor.chunk_text`.  If the text fits in one chunk it is
returned unmodified; otherwise the windowing loop runs (with fuel). -/
def chunk_text (t : List Char) (chunk_size overlap : Int) (fuel : Nat) :
    Option (List (List Char)) :=
  if (t.length : Int) ≤ chunk_size then some [t]
  else chunkLoop t chunk_size overlap fuel 0 []

/-! ## Category extraction (document_processor.py lines 111-113, 140-145)

A filesystem path is modelled as its list of segments.  A file found by
`scan_sop_documents` under `root` has full path `root ++ rel` where `rel`
is its path relative to the root (last segment = file name). -/

/-- `file_path.parent.name`: the name of the immediate parent directory,
i.e. the second-to-last segment of the full path (`""` if there is none,
matching `PurePath("x").parent.name == ""`). -/
def parent_name (path : List String) : String :=
  path.dropLast.getLast?.getD ""

/-- The category stored by `process_document` for a scanned file: the
parent directory name of its full path. -/
def sop_category_of (root rel : List String) : String :=
  parent_name (root ++ rel)

/-- The first path segment of the file's path relative to the root (the
immediate subdirectory of the root containing it), as the spec's
"category = first path segment under root" reading. -/
def firstSegmentUnderRoot (rel : List String) : String :=
  rel.head?.getD ""

/-! ## `DocumentSearcher` (document_searcher.py)

The ChromaDB collection is modelled as an association list from passage
identifier to stored record; similarity distances are modelled over `ℚ`. -/

/-- The per-chunk metadata assembled by `DocumentSearcher.add_documents`. -/
structure Metadata where
  sop_category : String
  sop_name : String
  file_path : String
  language : String
  chunk_index : Nat
  total_chunks : Nat
  file_size : Nat
  last_modified : Int
  deriving DecidableEq

/-- One stored passage: text, metadata and embedding vector. -/
structure PassageRecord where
  text : String
  metadata : Metadata
  embedding : List ℚ
  deriving DecidableEq

/-- The vector collection: identifier-keyed records, in insertion order. -/
abbrev Collection := List (String × PassageRecord)

/-- Modelled from the spec: the persistent vector collection "supports
upsert-by-id" — "an identifier already present is overwritten, not
duplicated" (ChromaDB itself is not part of the repository).  An existing
identifier is overwritten in place, a new one is appended. -/
def upsert (col : Collection) (p : String × PassageRecord) : Collection :=
  if col.any (fun q => q.1 == p.1) then
    col.map (fun q => if q.1 == p.1 then p else q)
  else col ++ [p]

/-- A processed document record as produced by `process_document` (the
fields used by `add_documents`). -/
structure DocData where
  sop_category : String
  sop_name : String
  file_path : String
  language : String
  chunks : List String
  chunk_count : Nat
  file_size : Nat
  last_modified : Int

/-- The flattening loop of `add_documents`: for chunk `i` of `doc`, the
identifier `f"{sop_category}_{sop_name}_chunk_{i}"`, the chunk text, and the
metadata dictionary. -/
def doc_entries (doc : DocData) : List (String × String × Metadata) :=
  doc.chunks.enum.map fun p =>
    (doc.sop_category ++ "_" ++ doc.sop_name ++ "_chunk_" ++ toString p.1,
     p.2,
     ⟨doc.sop_category, doc.sop_name, doc.file_path, doc.language,
      p.1, doc.chunk_count, doc.file_size, doc.last_modified⟩)

/-- All (identifier, text, metadata) triples of a document batch, in
document order then chunk order. -/
def all_entries (docs : List DocData) : List (String × String × Metadata) :=
  (docs.map doc_entries).flatten

/-- The aligned (identifier, record) pairs passed to the collection in the
single `collection.add` call: the flattened triples zipped with the batch
embeddings (`embed` applied to all texts). -/
def entry_pairs (embed : List String → List (List ℚ))
    (docs : List DocData) : List (String × PassageRecord) :=
  ((all_entries docs).zip (embed ((all_entries docs).map fun e => e.2.1))).map
    fun pe => (pe.1.1, ⟨pe.1.2.1, pe.1.2.2, pe.2⟩)

/-- `DocumentSearcher.add_documents`.  `embed` is the deterministic
embedding model (`_generate_embeddings`), returning `[]` on failure exactly
as the source does.  Returns the success flag and the updated collection:
unchanged when the flattened text list is empty or embedding fails,
otherwise every aligned (id, text, metadata, embedding) tuple is upserted
in order. -/
def add_documents (embed : List String → List (List ℚ))
    (col : Collection) (docs : List DocData) : Bool × Collection :=
  if (all_entries docs).isEmpty then (false, col)
  else if (embed ((all_entries docs).map fun e => e.2.1)).isEmpty then (false, col)
  else (true, List.foldl upsert col (entry_pairs embed docs))

/-- One formatted search result, as built in `DocumentSearcher.search`. -/
structure SearchResult where
  content : String
  metadata : Metadata
  similarity_score : ℚ
  sop_category : String
  sop_name : String
  file_path : String
  deriving DecidableEq

/-- The `where` clause built by `search`: Python `if sop_category:` is
truthiness, so both `None` and the empty string produce no filter. -/
def whereClauseOf (cat : Option String) : Option String :=
  match cat with
  | some c => if c = "" then none else some c
  | none => none

/-- Whether a stored record matches the (optional) metadata filter. -/
def matchesWhere (wc : Option String) (m : Metadata) : Bool :=
  match wc with
  | none => true
  | some c => m.sop_category == c

/-- Modelled from the spec: `collection.query` (ChromaDB, external) returns
the `n` nearest stored records among those matching the metadata filter,
ordered by ascending distance, with each record's distance to the query
embedding.  `d` is the collection's distance metric. -/
def queryRows (d : List ℚ → List ℚ → ℚ) (col : Collection)
    (qe : List ℚ) (n : Nat) (wc : Option String) : List (PassageRecord × ℚ) :=
  (List.insertionSort (fun a b => a.2 ≤ b.2)
    ((col.filter (fun q => matchesWhere wc q.2.metadata)).map
      (fun q => (q.2, d qe q.2.embedding)))).take n

/-- The result-formatting loop of `search`: similarity score is `1 -
distance`, and the category/name/path fields are copied out of the
metadata. -/
def formatResults (rows : List (PassageRecord × ℚ)) : List SearchResult :=
  rows.map fun pr =>
    ⟨pr.1.text, pr.1.metadata, 1 - pr.2,
     pr.1.metadata.sop_category, pr.1.metadata.sop_name, pr.1.metadata.file_path⟩

/-- `DocumentSearcher.search`, generic in the two failable steps: `embed`
returns `[]` when `_generate_embeddings` fails (so indexing `[0]` raises and
the surrounding `try` returns `[]`), and `qback` returns `none` when the
collection query raises. -/
def searchGen (embed : List String → List (List ℚ))
    (qback : List ℚ → Option String → Option (List (PassageRecord × ℚ)))
    (query : String) (cat : Option String) : List SearchResult :=
  match embed [query] with
  | [] => []
  | qe :: _ =>
    match qback qe (whereClauseOf cat) with
    | none => []
    | some rows => formatResults rows

/-- The non-raising instantiation of the collection query backend. -/
def chroma_query (d : List ℚ → List ℚ → ℚ) (col : Collection) (n : Nat)
    (qe : List ℚ) (wc : Option String) : Option (List (PassageRecord × ℚ)) :=
  some (queryRows d col qe n wc)

/-- `DocumentSearcher.search` with the modelled ChromaDB backend. -/
def search (d : List ℚ → List ℚ → ℚ) (col : Collection)
    (embed : List String → List (List ℚ)) (query : String) (n : Nat)
    (cat : Option String) : List SearchResult :=
  searchGen embed (chroma_query d col n) query cat

/-- `DocumentSearcher.clear_collection`: delete and recreate the collection,
leaving it empty. -/
def clear_collection (_col : Collection) : Collection := []

/-! ## Server operations (mcp_server.py) -/

/-- The success/error envelope of a tool response (the fields every claim
here is about). -/
structure ToolResult where
  success : Bool
  error : Option String
  deriving DecidableEq

/-- `refresh_sop_database` (mcp_server.py lines 241-294): clear the
collection, rescan (`scanned` is the result of `scan_sop_documents`), fail
with an explicit error when nothing was found, otherwise re-add
everything. -/
def refresh_sop_database (embed : List String → List (List ℚ))
    (col : Collection) (scanned : List DocData) : ToolResult × Collection :=
  let col1 := clear_collection col
  if scanned.isEmpty then
    (⟨false, some "No documents found to process"⟩, col1)
  else
    let r := add_documents embed col1 scanned
    if r.1 then (⟨true, none⟩, r.2)
    else (⟨false, some "Failed to add documents to search index"⟩, r.2)

/-- `initialize_server` (mcp_server.py lines 33-72), the bootstrap: when the
collection is empty, scan; an empty scan result only logs a warning and
still marks the server ready; an indexing failure raises
(`Except.error`).  The returned `Bool` is the `is_initialized` flag. -/
def init_server (embed : List String → List (List ℚ))
    (col : Collection) (scanned : List DocData) :
    Except String (Bool × Collection) :=
  if col.length = 0 then
    if scanned.isEmpty then Except.ok (true, col)
    else
      let r := add_documents embed col scanned
      if r.1 then Except.ok (true, r.2)
      else Except.error "Failed to initialize document search index"
  else Except.ok (true, col)

/-! ## Auxiliary definitions for the proofs -/

/-- No two adjacent whitespace characters: the shape invariant of
whitespace-collapsed text. -/
def noWW (a b : Char) : Prop := pyIsSpace a = false ∨ pyIsSpace b = false

/-- The identifiers stored in a collection, in storage order. -/
def keysOf (col : Collection) : List String := col.map Prod.fst

instance : IsTotal (PassageRecord × ℚ) (fun a b => a.2 ≤ b.2) :=
  ⟨fun a b => le_total a.2 b.2⟩

instance : IsTrans (PassageRecord × ℚ) (fun a b => a.2 ≤ b.2) :=
  ⟨fun _ _ _ h1 h2 => le_trans h1 h2⟩

/-- Fixture: metadata of a passage in category SOP01. -/
def mdSOP01 : Metadata := ⟨"SOP01", "doc1", "p1.pdf", "it", 0, 1, 10, 0⟩

/-- Fixture: metadata of a passage in category SOP02. -/
def mdSOP02 : Metadata := ⟨"SOP02", "doc2", "p2.pdf", "it", 0, 1, 10, 0⟩

/-- Fixture: a collection holding one SOP01 passage and one SOP02 passage. -/
def colSample : Collection :=
  [("SOP01_doc1_chunk_0", ⟨"testo uno", mdSOP01, [0]⟩),
   ("SOP02_doc2_chunk_0", ⟨"testo due", mdSOP02, [1]⟩)]

/-- Fixture: an embedding model that maps every batch to one unit vector. -/
def embedSample : List String → List (List ℚ) := fun _ => [[1]]

/-- Fixture: a distance metric that reads the distance off the stored
vector's first coordinate (0 for the SOP01 passage, 1 for the SOP02 one). -/
def distSample : List ℚ → List ℚ → ℚ := fun _ v => v.headI

/-! ## Lemmas about the Python string primitives -/

theorem pyClampIdx_le (n : Nat) (i : Int) : pyClampIdx n i ≤ n := by
  unfold pyClampIdx
  split <;> omega

theorem length_pySlice (t : List Char) (s e : Int) :
    (pySlice t s e).length = pyClampIdx t.length e - pyClampIdx t.length s := by
  have h := pyClampIdx_le t.length e
  simp only [pySlice, List.length_drop, List.length_take]
  omega

theorem length_pyStrip_le (l : List Char) : (pyStrip l).length ≤ l.length := by
  have h1 := (List.dropWhile_sublist (l := l) pyIsSpace).length_le
  have h2 :=
    (List.dropWhile_sublist (l := (l.dropWhile pyIsSpace).reverse) pyIsSpace).length_le
  simp only [pyStrip, List.length_reverse]
  simp only [List.length_reverse] at h2
  omega

theorem pyRfindChar_cases (t : List Char) (c : Char) (s e : Int) :
    pyRfindChar t c s e = -1 ∨
    (0 ≤ pyRfindChar t c s e ∧
     pyRfindChar t c s e < (pyClampIdx t.length e : Int) ∧
     pyRfindChar t c s e < (t.length : Int)) := by
  cases hf : (List.range t.length).reverse.find?
      (fun i => decide (pyClampIdx t.length s ≤ i) &&
                decide (i < pyClampIdx t.length e) &&
                decide (t[i]? = some c)) with
  | none =>
    left
    unfold pyRfindChar
    rw [hf]
  | some i =>
    have hre : pyRfindChar t c s e = (i : Int) := by
      unfold pyRfindChar
      rw [hf]
    have hp := List.find?_some hf
    simp only [Bool.and_eq_true, decide_eq_true_eq] at hp
    have hmem := List.mem_of_find?_eq_some hf
    rw [List.mem_reverse, List.mem_range] at hmem
    right
    rw [hre]
    refine ⟨Int.ofNat_nonneg i, ?_, ?_⟩ <;> omega

/-! ## Chunker lemmas -/

theorem clamp_bound (n : Nat) (s cs : Int) (hcs : 0 ≤ cs) :
    (pyClampIdx n (s + cs) : Int) - pyClampIdx n s ≤ cs := by
  simp only [pyClampIdx]
  split <;> split <;> omega

theorem chunkEnd_clamp_le (t : List Char) (cs start : Int) :
    pyClampIdx t.length (chunkEnd t cs start) ≤ pyClampIdx t.length (start + cs) := by
  simp only [chunkEnd]
  split
  · split
    · rename_i hlt hse
      rcases pyRfindChar_cases t '.' start (start + cs) with h | ⟨h0, h1, _⟩
      · rw [h]
        have h0 : (-1 + 1 : Int) = 0 := by norm_num
        rw [h0]
        simp only [pyClampIdx]
        split <;> split <;> omega
      · have : pyClampIdx t.length (pyRfindChar t '.' start (start + cs) + 1) ≤
            pyClampIdx t.length (start + cs) := by
          simp only [pyClampIdx] at h1 ⊢
          split at h1 <;> split <;> omega
        exact this
    · exact le_rfl
  · exact le_rfl

theorem chunk_piece_le (t : List Char) (cs start : Int) (hcs : 0 ≤ cs) :
    ((pyStrip (pySlice t start (chunkEnd t cs start))).length : Int) ≤ cs := by
  have h1 := length_pyStrip_le (pySlice t start (chunkEnd t cs start))
  have h2 := length_pySlice t start (chunkEnd t cs start)
  have h3 := chunkEnd_clamp_le t cs start
  have h4 := clamp_bound t.length start cs hcs
  omega

theorem chunkLoop_len_le (t : List Char) (cs ov : Int) (hcs : 0 ≤ cs) :
    ∀ (fuel : Nat) (start : Int) (acc res : List (List Char)),
      (∀ c ∈ acc, (c.length : Int) ≤ cs) →
      chunkLoop t cs ov fuel start acc = some res →
      ∀ c ∈ res, (c.length : Int) ≤ cs := by
  intro fuel
  induction fuel with
  | zero =>
    intro start acc res hacc h
    exact absurd h (by simp [chunkLoop])
  | succ fuel ih =>
    intro start acc res hacc h
    simp only [chunkLoop] at h
    split at h
    · refine ih _ _ _ ?_ h
      split
      · exact hacc
      · intro c hc
        rcases List.mem_append.mp hc with hc | hc
        · exact hacc c hc
        · rw [List.mem_singleton.mp hc]
          exact chunk_piece_le t cs start hcs
    · rw [Option.some_inj] at h
      rw [← h]
      exact hacc

/-- C5: a text that fits within `chunk_size` is returned as the unique
chunk, unmodified — no trimming and no overlap is applied. -/
theorem chunk_text_short (t : List Char) (chunk_size overlap : Int) (fuel : Nat)
    (h : (t.length : Int) ≤ chunk_size) :
    chunk_text t chunk_size overlap fuel = some [t] := by
  rw [chunk_text, if_pos h]

theorem chunk_text_short_witness :
    (("hello".toList.length : Int) ≤ 1000) ∧
    chunk_text "hello".toList 1000 200 9 = some ["hello".toList] :=
  ⟨by decide, chunk_text_short "hello".toList 1000 200 9 (by decide)⟩

/-- C6 (amended): for a nonnegative `chunk_size`, every chunk produced by
`chunk_text` for a text longer than `chunk_size` has length at most
`chunk_size`. -/
theorem chunk_text_len_le (t : List Char) (chunk_size overlap : Int) (fuel : Nat)
    (res : List (List Char)) (hcs : 0 ≤ chunk_size)
    (hlen : chunk_size < (t.length : Int))
    (h : chunk_text t chunk_size overlap fuel = some res) :
    ∀ c ∈ res, (c.length : Int) ≤ chunk_size := by
  rw [chunk_text, if_neg (by omega)] at h
  exact chunkLoop_len_le t chunk_size overlap hcs fuel 0 [] res (by simp) h

theorem chunk_text_len_le_witness :
    ((0 : Int) ≤ 3 ∧ (3 : Int) < ("abcdef".toList.length : Int) ∧
     chunk_text "abcdef".toList 3 1 9 =
       some ["abc".toList, "cde".toList, "ef".toList]) ∧
    ∀ c ∈ ["abc".toList, "cde".toList, "ef".toList], (c.length : Int) ≤ 3 :=
  ⟨⟨by decide, by decide, by decide⟩,
   chunk_text_len_le "abcdef".toList 3 1 9 _ (by decide) (by decide) (by decide)⟩

/-- C6 counterexample: with a negative `chunk_size` (here `-5`, with
`overlap = -10`) the sentence-boundary branch still fires, and
`chunk_text` returns a chunk of length `5 > chunk_size` on a text longer
than `chunk_size` — so the claim is false without a sign restriction on
`chunk_size`. -/
theorem chunk_text_len_le_cex :
    chunk_text "aaaa.zzzzz".toList (-5) (-10) 2 = some ["aaaa.".toList] ∧
    (-5 : Int) < ("aaaa.zzzzz".toList.length : Int) ∧
    ¬ (("aaaa.".toList.length : Int) ≤ -5) := by
  refine ⟨by decide, by decide, by decide⟩

/-! ## Chunker termination (C2) -/

theorem chunkBadStep (fuel : Nat) (acc : List (List Char)) :
    chunkLoop "aaaaaa.zzzzzzzz".toList 10 7 (fuel + 1) 0 acc =
    chunkLoop "aaaaaa.zzzzzzzz".toList 10 7 fuel 0 (acc ++ ["aaaaaa.".toList]) := by
  have h1 : chunkEnd "aaaaaa.zzzzzzzz".toList 10 0 = 7 := by decide
  have h2 : pyStrip (pySlice "aaaaaa.zzzzzzzz".toList 0 7) = "aaaaaa.".toList := by
    decide
  have h3 : (("aaaaaa.".toList : List Char)).isEmpty = false := by decide
  have h4 : ((0 : Int) < ("aaaaaa.zzzzzzzz".toList.length : Int)) := by decide
  simp only [chunkLoop, h1, h2, h3, if_pos h4]
  norm_num

theorem chunkBadLoop :
    ∀ (fuel : Nat) (acc : List (List Char)),
      chunkLoop "aaaaaa.zzzzzzzz".toList 10 7 fuel 0 acc = none := by
  intro fuel
  induction fuel with
  | zero => intro acc; rfl
  | succ n ih =>
    intro acc
    rw [chunkBadStep]
    exact ih _

/-- C2 counterexample: `overlap = 7 < 10 = chunk_size`, yet on the text
`"aaaaaa.zzzzzzzz"` the sentence-boundary adjustment moves the window end
back to index 7, so `start` returns to `7 - 7 = 0` on every iteration and
the loop never terminates (no fuel suffices). -/
theorem chunk_text_terminates_cex :
    ((0 : Int) ≤ 7 ∧ (7 : Int) < 10) ∧
    ∀ fuel : Nat, chunk_text "aaaaaa.zzzzzzzz".toList 10 7 fuel = none := by
  refine ⟨⟨by norm_num, by norm_num⟩, fun fuel => ?_⟩
  rw [chunk_text, if_neg (by decide)]
  exact chunkBadLoop fuel []

theorem chunkEnd_progress (t : List Char) (cs ov start : Int) (hcs : 0 < cs)
    (hov : ov ≤ Int.fdiv cs 2) (hstart : 0 ≤ start) :
    start + 1 ≤ chunkEnd t cs start - ov ∧ 0 ≤ chunkEnd t cs start - ov := by
  have hfd : Int.fdiv cs 2 = cs / 2 := Int.fdiv_eq_ediv _ (by norm_num)
  rw [hfd] at hov
  simp only [chunkEnd]
  split
  · split
    · rename_i hlt hse
      rw [hfd] at hse
      omega
    · omega
  · omega

theorem chunkLoop_term (t : List Char) (cs ov : Int) (hcs : 0 < cs)
    (hov : ov ≤ Int.fdiv cs 2) :
    ∀ (fuel : Nat) (start : Int) (acc : List (List Char)), 0 ≤ start →
      (t.length : Int) ≤ start + fuel →
      (chunkLoop t cs ov (fuel + 1) start acc).isSome := by
  intro fuel
  induction fuel with
  | zero =>
    intro start acc h0 hf
    simp only [chunkLoop]
    rw [if_neg (by omega)]
    rfl
  | succ n ih =>
    intro start acc h0 hf
    by_cases hlt : start < (t.length : Int)
    · have hp := chunkEnd_progress t cs ov start hcs hov h0
      simp only [chunkLoop]
      rw [if_pos hlt]
      exact ih _ _ hp.2 (by omega)
    · simp only [chunkLoop]
      rw [if_neg hlt]
      rfl

/-- C2 (amended): the loop terminates — fuel `len(t) + 1` suffices —
whenever `0 ≤ overlap ≤ chunk_size // 2` and `chunk_size > 0`; `overlap <
chunk_size` alone does not guarantee progress, because the
sentence-boundary adjustment can move the window end back to just past the
window midpoint. -/
theorem chunk_text_terminates (t : List Char) (chunk_size overlap : Int)
    (hcs : 0 < chunk_size) (_hov0 : 0 ≤ overlap)
    (hov : overlap ≤ Int.fdiv chunk_size 2) :
    (chunk_text t chunk_size overlap (t.length + 1)).isSome := by
  rw [chunk_text]
  split
  · rfl
  · exact chunkLoop_term t chunk_size overlap hcs hov t.length 0 [] le_rfl
      (by omega)

theorem chunk_text_terminates_witness :
    ((0 : Int) < 10 ∧ (0 : Int) ≤ 5 ∧ (5 : Int) ≤ Int.fdiv 10 2) ∧
    (chunk_text "aaaaaa.zzzzzzzz".toList 10 5
      ("aaaaaa.zzzzzzzz".toList.length + 1)).isSome :=
  ⟨⟨by norm_num, by norm_num, by decide⟩,
   chunk_text_terminates "aaaaaa.zzzzzzzz".toList 10 5 (by norm_num)
     (by norm_num) (by decide)⟩

/-! ## Normalizer lemmas (C10) -/

theorem mem_collapseAux {c : Char} :
    ∀ (l : List Char) (b : Bool), c ∈ collapseAux b l → c = ' ' ∨ c ∈ l := by
  intro l
  induction l with
  | nil => intro b h; exact absurd h (by simp [collapseAux])
  | cons d ds ih =>
    intro b h
    simp only [collapseAux] at h
    split at h
    · split at h
      · rcases ih _ h with h' | h'
        · exact Or.inl h'
        · exact Or.inr (List.mem_cons_of_mem _ h')
      · rcases List.mem_cons.mp h with h' | h'
        · exact Or.inl h'
        · rcases ih _ h' with h'' | h''
          · exact Or.inl h''
          · exact Or.inr (List.mem_cons_of_mem _ h'')
    · rcases List.mem_cons.mp h with h' | h'
      · exact Or.inr (h' ▸ List.mem_cons_self _ _)
      · rcases ih _ h' with h'' | h''
        · exact Or.inl h''
        · exact Or.inr (List.mem_cons_of_mem _ h'')

theorem ws_collapseAux {c : Char} :
    ∀ (l : List Char) (b : Bool),
      c ∈ collapseAux b l → pyIsSpace c = true → c = ' ' := by
  intro l
  induction l with
  | nil => intro b h; exact absurd h (by simp [collapseAux])
  | cons d ds ih =>
    intro b h hws
    simp only [collapseAux] at h
    split at h
    · split at h
      · exact ih _ h hws
      · rcases List.mem_cons.mp h with h' | h'
        · exact h'
        · exact ih _ h' hws
    · rcases List.mem_cons.mp h with h' | h'
      · rename_i hd
        rw [h'] at hws
        exact absurd hws (by simp [hd])
      · exact ih _ h' hws

theorem head_collapseAux_true {h : Char} :
    ∀ (l : List Char), (collapseAux true l).head? = some h →
      pyIsSpace h = false := by
  intro l
  induction l with
  | nil => intro hh; exact absurd hh (by simp [collapseAux])
  | cons d ds ih =>
    intro hh
    simp only [collapseAux] at hh
    split at hh
    · exact ih hh
    · rename_i hd
      rw [List.head?_cons, Option.some_inj] at hh
      rw [← hh]
      simpa using hd

theorem chain_collapseAux :
    ∀ (l : List Char) (b : Bool), List.Chain' noWW (collapseAux b l) := by
  intro l
  induction l with
  | nil => intro b; simp [collapseAux]
  | cons d ds ih =>
    intro b
    simp only [collapseAux]
    split
    · split
      · exact ih true
      · refine List.chain'_cons'.mpr ⟨?_, ih true⟩
        intro y hy
        exact Or.inr (head_collapseAux_true ds hy)
    · rename_i hd
      refine List.chain'_cons'.mpr ⟨?_, ih false⟩
      intro y _
      exact Or.inl (by simpa using hd)

theorem collapseAux_true_eq_false (l : List Char)
    (hh : ∀ h, l.head? = some h → pyIsSpace h = false) :
    collapseAux true l = collapseAux false l := by
  cases l with
  | nil => rfl
  | cons d ds =>
    have hd : pyIsSpace d = false := hh d rfl
    simp only [collapseAux, hd]
    simp

theorem collapseAux_eq_self :
    ∀ (l : List Char), (∀ c ∈ l, pyIsSpace c = true → c = ' ') →
      List.Chain' noWW l → collapseAux false l = l := by
  intro l
  induction l with
  | nil => intro _ _; rfl
  | cons d ds ih =>
    intro hws hch
    have hch' : List.Chain' noWW ds := (List.chain'_cons'.mp hch).2
    have hds : collapseAux false ds = ds :=
      ih (fun c hc => hws c (List.mem_cons_of_mem _ hc)) hch'
    by_cases hd : pyIsSpace d = true
    · have hd' : d = ' ' := hws d (List.mem_cons_self _ _) hd
      have hh : ∀ h, ds.head? = some h → pyIsSpace h = false := by
        intro h hh
        rcases (List.chain'_cons'.mp hch).1 h hh with h' | h'
        · rw [hd] at h'; cases h'
        · exact h'
      have hstep : collapseAux false (d :: ds) = ' ' :: collapseAux true ds := by
        simp [collapseAux, hd]
      rw [hstep, collapseAux_true_eq_false ds hh, hds, hd']
    · simp only [collapseAux, hd]
      rw [hds]
      simp at hd
      simp [hd]

theorem chain'_dropWhile {α : Type} {R : α → α → Prop} (p : α → Bool) :
    ∀ (l : List α), List.Chain' R l → List.Chain' R (l.dropWhile p) := by
  intro l
  induction l with
  | nil => intro h; simp
  | cons d ds ih =>
    intro h
    rw [List.dropWhile_cons]
    split
    · exact ih (List.chain'_cons'.mp h).2
    · exact h

theorem noWW_symm {a b : Char} (h : noWW a b) : noWW b a := Or.symm h

theorem chain'_pyStrip (l : List Char) (h : List.Chain' noWW l) :
    List.Chain' noWW (pyStrip l) := by
  unfold pyStrip
  rw [List.chain'_reverse]
  refine List.Chain'.imp (fun a b hab => noWW_symm hab) ?_
  refine chain'_dropWhile _ _ ?_
  rw [List.chain'_reverse]
  refine List.Chain'.imp (fun a b hab => noWW_symm hab) ?_
  exact chain'_dropWhile _ _ h

theorem mem_pyStrip {c : Char} (l : List Char) (h : c ∈ pyStrip l) : c ∈ l := by
  unfold pyStrip at h
  rw [List.mem_reverse] at h
  have h2 := (List.dropWhile_sublist pyIsSpace).subset h
  rw [List.mem_reverse] at h2
  exact (List.dropWhile_sublist pyIsSpace).subset h2

theorem head?_dropWhile {α : Type} {p : α → Bool} {h : α} :
    ∀ (l : List α), (l.dropWhile p).head? = some h → p h = false := by
  intro l
  induction l with
  | nil => intro hh; exact absurd hh (by simp)
  | cons d ds ih =>
    intro hh
    rw [List.dropWhile_cons] at hh
    split at hh
    · exact ih hh
    · rename_i hd
      rw [List.head?_cons, Option.some_inj] at hh
      rw [← hh]
      cases hpd : p d with
      | false => rfl
      | true => exact absurd hpd hd

theorem dropWhile_eq_self_of_head {α : Type} {p : α → Bool} (l : List α)
    (hh : ∀ h, l.head? = some h → p h = false) : l.dropWhile p = l := by
  cases l with
  | nil => rfl
  | cons d ds =>
    rw [List.dropWhile_cons, if_neg]
    simp [hh d rfl]

theorem getLast?_dropWhile {α : Type} {p : α → Bool} {a : α} :
    ∀ (l : List α), (l.dropWhile p).getLast? = some a → l.getLast? = some a := by
  intro l
  induction l with
  | nil => intro hh; exact absurd hh (by simp)
  | cons d ds ih =>
    intro hh
    rw [List.dropWhile_cons] at hh
    split at hh
    · have hds := ih hh
      have hne : ds ≠ [] := by
        intro he
        rw [he] at hds
        exact absurd hds (by simp)
      cases ds with
      | nil => exact absurd rfl hne
      | cons e es => rw [List.getLast?_cons_cons]; exact hds
    · exact hh

theorem pyStrip_head {l : List Char} {h : Char}
    (hh : (pyStrip l).head? = some h) : pyIsSpace h = false := by
  unfold pyStrip at hh
  rw [List.head?_reverse] at hh
  have h2 := getLast?_dropWhile _ hh
  rw [List.getLast?_reverse] at h2
  exact head?_dropWhile _ h2

theorem pyStrip_getLast {l : List Char} {h : Char}
    (hh : (pyStrip l).getLast? = some h) : pyIsSpace h = false := by
  unfold pyStrip at hh
  rw [List.getLast?_reverse] at hh
  exact head?_dropWhile _ hh

theorem pyStrip_eq_self (l : List Char)
    (h1 : ∀ h, l.head? = some h → pyIsSpace h = false)
    (h2 : ∀ h, l.getLast? = some h → pyIsSpace h = false) : pyStrip l = l := by
  unfold pyStrip
  rw [dropWhile_eq_self_of_head l h1]
  rw [dropWhile_eq_self_of_head l.reverse (by
    intro h hh
    rw [List.head?_reverse] at hh
    exact h2 h hh)]
  exact List.reverse_reverse l

/-- C10 counterexample: cleaning `"a § b"` removes the disallowed `'§'`
between two spaces, leaving the double space `"a  b"`; a second cleaning
collapses it to `"a b"`, so `clean_text` is not idempotent. -/
theorem clean_text_idem_cex :
    clean_text (clean_text "a § b".toList) ≠ clean_text "a § b".toList := by
  decide

/-- C10 (amended): `clean_text` is idempotent on texts all of whose
characters are on the filter's allow-list (then the filter removes nothing,
and collapsing plus trimming is idempotent); on other texts a removal can
create a new whitespace run or a new leading/trailing space. -/
theorem clean_text_idem (t : List Char)
    (hall : ∀ c ∈ t, isAllowed c = true) :
    clean_text (clean_text t) = clean_text t := by
  have hmemu : ∀ c ∈ pyStrip (collapseWS t), isAllowed c = true := by
    intro c hc
    rcases mem_collapseAux (c := c) t false (mem_pyStrip _ hc) with h | h
    · rw [h]; decide
    · exact hall c h
  have hfu : (pyStrip (collapseWS t)).filter isAllowed = pyStrip (collapseWS t) :=
    List.filter_eq_self.mpr hmemu
  have hclean1 : clean_text t = pyStrip (collapseWS t) := by
    rw [clean_text, hfu]
  rw [hclean1]
  have hchain_u : List.Chain' noWW (pyStrip (collapseWS t)) :=
    chain'_pyStrip _ (chain_collapseAux t false)
  have hws_u : ∀ c ∈ pyStrip (collapseWS t), pyIsSpace c = true → c = ' ' :=
    fun c hc => ws_collapseAux t false (mem_pyStrip _ hc)
  have hcoll : collapseWS (pyStrip (collapseWS t)) = pyStrip (collapseWS t) :=
    collapseAux_eq_self _ hws_u hchain_u
  rw [clean_text, collapseWS] at *
  rw [hcoll]
  rw [pyStrip_eq_self _ (fun h hh => pyStrip_head hh)
    (fun h hh => pyStrip_getLast hh)]
  exact List.filter_eq_self.mpr hmemu

theorem clean_text_idem_witness :
    (∀ c ∈ "Ciao,  mondo è qui!".toList, isAllowed c = true) ∧
    clean_text (clean_text "Ciao,  mondo è qui!".toList) =
      clean_text "Ciao,  mondo è qui!".toList :=
  ⟨by decide, clean_text_idem "Ciao,  mondo è qui!".toList (by decide)⟩

/-! ## Category extraction (C3) -/

/-- C3 counterexample: for the file `catA/sub/doc.pdf` under the document
root, `process_document` stores `parent.name = "sub"`, not the first path
segment `"catA"` under the root. -/
theorem sop_category_cex :
    sop_category_of ["sop_documents"] ["catA", "sub", "doc.pdf"] = "sub" ∧
    firstSegmentUnderRoot ["catA", "sub", "doc.pdf"] = "catA" ∧
    sop_category_of ["sop_documents"] ["catA", "sub", "doc.pdf"] ≠
      firstSegmentUnderRoot ["catA", "sub", "doc.pdf"] := by
  refine ⟨rfl, rfl, by decide⟩

/-- C3 (amended): the stored category is the name of the file's immediate
parent directory; it coincides with the first path segment under the root
exactly for files that sit directly inside an immediate subdirectory of the
root (relative path `[category, filename]`). -/
theorem sop_category_depth_one (root : List String) (c f : String) :
    sop_category_of root [c, f] = c ∧ firstSegmentUnderRoot [c, f] = c := by
  constructor
  · unfold sop_category_of parent_name
    have h : (root ++ [c, f]).dropLast = root ++ [c] := by
      have h2 : root ++ [c, f] = (root ++ [c]) ++ [f] := by simp
      rw [h2, List.dropLast_concat]
    rw [h, List.getLast?_concat]
    rfl
  · rfl

/-! ## Collection keys and `add_documents` idempotence (C1) -/

theorem keysOf_replace (col : Collection) (p : String × PassageRecord) :
    keysOf (col.map (fun q => if q.1 == p.1 then p else q)) = keysOf col := by
  unfold keysOf
  rw [List.map_map]
  refine List.map_congr_left ?_
  intro q _
  by_cases h : q.1 == p.1
  · simp only [Function.comp_apply, if_pos h]
    exact (beq_iff_eq.mp h).symm
  · simp only [Function.comp_apply, if_neg h]

theorem any_eq_mem_keys (col : Collection) (k : String) :
    col.any (fun q => q.1 == k) = true ↔ k ∈ keysOf col := by
  rw [List.any_eq_true]
  unfold keysOf
  rw [List.mem_map]
  constructor
  · rintro ⟨q, hq, hbeq⟩
    exact ⟨q, hq, beq_iff_eq.mp hbeq⟩
  · rintro ⟨q, hq, hbeq⟩
    exact ⟨q, hq, beq_iff_eq.mpr hbeq⟩

theorem keysOf_upsert_of_mem (col : Collection) (p : String × PassageRecord)
    (h : p.1 ∈ keysOf col) : keysOf (upsert col p) = keysOf col := by
  unfold upsert
  rw [if_pos ((any_eq_mem_keys col p.1).mpr h)]
  exact keysOf_replace col p

theorem mem_keysOf_upsert (col : Collection) (p : String × PassageRecord)
    (k : String) (h : k ∈ keysOf col) : k ∈ keysOf (upsert col p) := by
  unfold upsert
  split
  · rw [keysOf_replace]; exact h
  · unfold keysOf
    rw [List.map_append]
    exact List.mem_append_left _ h

theorem self_mem_keysOf_upsert (col : Collection) (p : String × PassageRecord) :
    p.1 ∈ keysOf (upsert col p) := by
  unfold upsert
  split
  · rename_i h
    rw [keysOf_replace]
    exact (any_eq_mem_keys col p.1).mp h
  · unfold keysOf
    rw [List.map_append]
    exact List.mem_append_right _ (by simp)

theorem mem_keysOf_foldl_upsert :
    ∀ (ps : List (String × PassageRecord)) (col : Collection) (k : String),
      k ∈ keysOf col → k ∈ keysOf (List.foldl upsert col ps) := by
  intro ps
  induction ps with
  | nil => intro col k h; exact h
  | cons p ps ih =>
    intro col k h
    exact ih _ _ (mem_keysOf_upsert col p k h)

theorem elem_mem_keysOf_foldl_upsert :
    ∀ (ps : List (String × PassageRecord)) (col : Collection)
      (p : String × PassageRecord), p ∈ ps →
      p.1 ∈ keysOf (List.foldl upsert col ps) := by
  intro ps
  induction ps with
  | nil => intro col p h; exact absurd h (by simp)
  | cons q ps ih =>
    intro col p h
    rcases List.mem_cons.mp h with h' | h'
    · rw [h']
      exact mem_keysOf_foldl_upsert ps _ _ (self_mem_keysOf_upsert col q)
    · exact ih _ _ h'

theorem keysOf_foldl_upsert_of_mem :
    ∀ (ps : List (String × PassageRecord)) (col : Collection),
      (∀ p ∈ ps, p.1 ∈ keysOf col) →
      keysOf (List.foldl upsert col ps) = keysOf col := by
  intro ps
  induction ps with
  | nil => intro col _; rfl
  | cons p ps ih =>
    intro col h
    have hp : keysOf (upsert col p) = keysOf col :=
      keysOf_upsert_of_mem col p (h p (List.mem_cons_self _ _))
    rw [List.foldl_cons, ih (upsert col p) ?_, hp]
    intro q hq
    rw [hp]
    exact h q (List.mem_cons_of_mem _ hq)

/-- C1: re-running `add_documents` on the same document set leaves the set
(and order) of passage identifiers and the total chunk count of the
collection unchanged: the deterministic identifiers produced by the second
run all already exist, so each upsert overwrites instead of inserting. -/
theorem add_documents_idem (embed : List String → List (List ℚ))
    (col : Collection) (docs : List DocData) :
    keysOf (add_documents embed (add_documents embed col docs).2 docs).2 =
      keysOf (add_documents embed col docs).2 ∧
    (add_documents embed (add_documents embed col docs).2 docs).2.length =
      (add_documents embed col docs).2.length := by
  suffices h : keysOf (add_documents embed (add_documents embed col docs).2 docs).2 =
      keysOf (add_documents embed col docs).2 by
    refine ⟨h, ?_⟩
    have h2 := congrArg List.length h
    unfold keysOf at h2
    simpa using h2
  unfold add_documents
  split
  · rfl
  · split
    · rfl
    · simp only
      refine keysOf_foldl_upsert_of_mem (entry_pairs embed docs) _ ?_
      intro p hp
      exact elem_mem_keysOf_foldl_upsert (entry_pairs embed docs) col p hp

/-! ## Search (C4, C8, C9) -/

/-- C4 counterexample: the filter argument `Some ""` is not `None`, but
Python's `if sop_category:` treats the empty string as falsy, so no `where`
clause is built and the query runs unfiltered — it returns the stored SOP01
passage, whose metadata category `"SOP01"` differs from the filter `""`. -/
theorem search_category_filter_cex :
    (some "" ≠ (none : Option String)) ∧
    ¬ (∀ r ∈ search distSample colSample embedSample "q" 5 (some ""),
        r.metadata.sop_category = "") := by
  refine ⟨by simp, ?_⟩
  intro h
  have h1 : ((search distSample colSample embedSample "q" 5 (some "")).all
      fun r => r.metadata.sop_category == "") = true := by
    rw [List.all_eq_true]
    intro r hr
    exact beq_iff_eq.mpr (h r hr)
  exact absurd h1 (by decide)

/-- C4 (amended): with a non-empty category filter, every search result's
metadata category equals the filter and at most `n_results` results are
returned (for the empty-string filter the truthiness check skips the
`where` clause entirely). -/
theorem search_category_filter (d : List ℚ → List ℚ → ℚ) (col : Collection)
    (embed : List String → List (List ℚ)) (q : String) (n : Nat) (c : String)
    (hc : c ≠ "") :
    (∀ r ∈ search d col embed q n (some c), r.metadata.sop_category = c) ∧
    (search d col embed q n (some c)).length ≤ n := by
  have hwc : whereClauseOf (some c) = some c := by
    rw [whereClauseOf, if_neg hc]
  unfold search searchGen
  cases hemb : embed [q] with
  | nil =>
    constructor
    · intro r hr
      simp at hr
    · simp
  | cons qe rest =>
    simp only [chroma_query, hwc]
    constructor
    · intro r hr
      rw [formatResults, List.mem_map] at hr
      obtain ⟨pr, hpr, hform⟩ := hr
      have hmem : pr ∈ (col.filter (fun p => matchesWhere (some c) p.2.metadata)).map
          (fun p => (p.2, d qe p.2.embedding)) := by
        have h1 := List.take_subset n _ hpr
        exact ((List.perm_insertionSort
          (fun a b : PassageRecord × ℚ => a.2 ≤ b.2) _).mem_iff).mp h1
      rw [List.mem_map] at hmem
      obtain ⟨p, hp, hpr2⟩ := hmem
      have hcat := (List.mem_filter.mp hp).2
      simp only [matchesWhere] at hcat
      rw [← hform, ← hpr2]
      exact beq_iff_eq.mp hcat
    · rw [formatResults, List.length_map, queryRows, List.length_take]
      omega

theorem search_category_filter_witness :
    (("SOP01" : String) ≠ "") ∧
    ((∀ r ∈ search distSample colSample embedSample "gestione" 5 (some "SOP01"),
        r.metadata.sop_category = "SOP01") ∧
     (search distSample colSample embedSample "gestione" 5 (some "SOP01")).length ≤ 5) :=
  ⟨by decide,
   search_category_filter distSample colSample embedSample "gestione" 5 "SOP01"
     (by decide)⟩

/-- C8: whenever a step of `search` fails — the query embedding step
returns nothing (`_generate_embeddings` raised or produced no vector, so
the `[0]` index raises), or the collection query raises — `search` returns
the empty list instead of propagating the error. -/
theorem search_failure_empty (embed : List String → List (List ℚ))
    (qback : List ℚ → Option String → Option (List (PassageRecord × ℚ)))
    (q : String) (cat : Option String)
    (h : embed [q] = [] ∨ ∀ qe, qback qe (whereClauseOf cat) = none) :
    searchGen embed qback q cat = [] := by
  unfold searchGen
  cases hemb : embed [q] with
  | nil => rfl
  | cons qe rest =>
    rcases h with h0 | h1
    · rw [h0] at hemb
      cases hemb
    · simp only [h1 qe]

theorem search_failure_empty_witness :
    ((fun _ : List String => ([] : List (List ℚ))) ["q"] = []) ∧
    searchGen (fun _ => []) (fun _ _ => none) "q" none = [] :=
  ⟨rfl, search_failure_empty _ _ "q" none (Or.inl rfl)⟩

/-- C9: when the query embedding succeeds, the similarity scores of the
returned results are exactly `1 - d` for the distances `d` of the
nearest-neighbor rows (in order), and — the rows being ordered by ascending
distance — the scores are monotonically non-increasing, so the top result
has the highest or equal score. -/
theorem search_scores (d : List ℚ → List ℚ → ℚ) (col : Collection)
    (embed : List String → List (List ℚ)) (q : String) (n : Nat)
    (cat : Option String) (qe : List ℚ) (rest : List (List ℚ))
    (hemb : embed [q] = qe :: rest) :
    (search d col embed q n cat).map SearchResult.similarity_score =
      (queryRows d col qe n (whereClauseOf cat)).map (fun pr => 1 - pr.2) ∧
    List.Sorted (· ≥ ·)
      ((search d col embed q n cat).map SearchResult.similarity_score) := by
  unfold search searchGen
  rw [hemb]
  simp only [chroma_query]
  have hmap : (formatResults (queryRows d col qe n (whereClauseOf cat))).map
      SearchResult.similarity_score =
      (queryRows d col qe n (whereClauseOf cat)).map (fun pr => 1 - pr.2) := by
    rw [formatResults, List.map_map]
    rfl
  refine ⟨hmap, ?_⟩
  rw [hmap]
  have hs : List.Sorted (fun a b : PassageRecord × ℚ => a.2 ≤ b.2)
      (queryRows d col qe n (whereClauseOf cat)) := by
    rw [queryRows]
    exact List.Pairwise.sublist (List.take_sublist _ _)
      (List.sorted_insertionSort _ _)
  rw [List.Sorted, List.pairwise_map]
  refine hs.imp ?_
  intro a b hab
  simp only [ge_iff_le]
  linarith

theorem search_scores_witness :
    (embedSample ["gestione"] = [[1]]) ∧
    ((search distSample colSample embedSample "gestione" 5 none).map
        SearchResult.similarity_score =
      (queryRows distSample colSample [1] 5 (whereClauseOf none)).map
        (fun pr => 1 - pr.2) ∧
     List.Sorted (· ≥ ·)
       ((search distSample colSample embedSample "gestione" 5 none).map
         SearchResult.similarity_score)) :=
  ⟨rfl, search_scores distSample colSample embedSample "gestione" 5 none [1] [] rfl⟩

/-! ## Full refresh vs bootstrap (C7) -/

/-- C7: when the rescan of the corpus root yields zero documents,
`refresh_sop_database` returns a failure payload (`success = false`) with
the explicit "No documents found to process" error and leaves the (already
cleared) index empty, whereas the bootstrap `initialize_server` tolerates
the same empty corpus and still reaches the initialized state without an
error. -/
theorem refresh_empty_corpus (embed : List String → List (List ℚ))
    (col : Collection) (scanned : List DocData) (h : scanned = []) :
    (refresh_sop_database embed col scanned).1.success = false ∧
    (refresh_sop_database embed col scanned).1.error =
      some "No documents found to process" ∧
    (refresh_sop_database embed col scanned).2 = [] ∧
    init_server embed [] scanned = Except.ok (true, []) := by
  subst h
  exact ⟨rfl, rfl, rfl, rfl⟩

theorem refresh_empty_corpus_witness :
    (([] : List DocData) = []) ∧
    ((refresh_sop_database embedSample colSample []).1.success = false ∧
     (refresh_sop_database embedSample colSample []).1.error =
       some "No documents found to process" ∧
     (refresh_sop_database embedSample colSample []).2 = [] ∧
     init_server embedSample [] [] = Except.ok (true, [])) :=
  ⟨rfl, refresh_empty_corpus embedSample colSample [] rfl⟩

end SOP
